import Mathlib

/-!
Verification of the A1ToneDiscrimination data reorganization and
dataset-splitting pipeline (src/autoencoder/dataset.py, src/utils/process.py).

The Python source is shallowly embedded: per-entity tensors are represented by
lists of their trial-axis slices (only the trial axis is manipulated by the
code under verification), pandas label columns by lists of strings, and the
numpy pseudo-random draw of `rng.choice(arange(n), size=k, replace=False)` by
an explicit oracle `choice : ℕ → List ℕ` (one draw per entity, in iteration
order) whose contract (distinct in-range indices, length `n / folds`) is the
documented contract of `numpy.random.RandomState.choice` with
`replace=False`.
-/

namespace A1

/-- Model of `numpy.delete(l, pos)` for a 1-D array `l` and a list of
positions `pos`: keep exactly the elements whose position is not in `pos`. -/
def npDelete {α : Type} (l : List α) (d : α) (pos : List ℕ) : List α :=
  ((List.range l.length).filter (fun i => !(pos.contains i))).map (fun i => l.getD i d)

/-- Model of numpy fancy indexing `cols[:, idxs]` along the trial axis:
`cols` is the list of per-trial slices, and the result selects the slices at
the listed trial indices. -/
def sliceCols {α : Type} [Inhabited α] (cols : List α) (idxs : List ℕ) : List α :=
  idxs.map (fun i => cols.getD i default)

/-- The per-entity data produced inside the first loop of
`_train_valid_split` (dataset.py lines 282-298): local train/valid trial
indices, the sliced dff and lick tensors, and the globally offset index
lists `[i + last_idx for i in ...]`. -/
structure EntSplit (D L : Type) where
  ename : String
  num : ℕ
  validLoc : List ℕ
  trainLoc : List ℕ
  dffV : List D
  dffT : List D
  lickV : List L
  lickT : List L
  validGlob : List ℕ
  trainGlob : List ℕ

/-- One iteration of the entity loop of `_train_valid_split`: `c` is the raw
output of `rng.choice(arange(num_samples), size=num_samples // xv_folds,
replace=False)` for this entity; the code sorts it (`valid_ = sorted(valid_)`),
forms `train_ = np.delete(np.arange(num_samples), valid_)`, slices the dff and
lick tensors along the trial axis, and offsets both index lists by the running
counter `last_idx`. -/
def splitOne {D L : Type} [Inhabited D] [Inhabited L] (c : List ℕ) (lastIdx : ℕ)
    (ename : String) (dcols : List D) (lcols : List L) : EntSplit D L :=
  let num := dcols.length
  let valid := List.insertionSort (· ≤ ·) c
  let train := npDelete (List.range num) 0 valid
  ⟨ename, num, valid, train,
   sliceCols dcols valid, sliceCols dcols train,
   sliceCols lcols valid, sliceCols lcols train,
   valid.map (· + lastIdx), train.map (· + lastIdx)⟩

/-- The full entity loop of `_train_valid_split`: iterate over
`dff_all.items()` in order, look up `licks_all[name]`, apply `splitOne`,
advance the per-entity draw counter `j` and the running offset
`last_idx += num_samples` (the entity's pre-split trial count). -/
def splitAll {D L : Type} [Inhabited D] [Inhabited L] (choice : ℕ → List ℕ)
    (licksAll : List (String × List L)) :
    List (String × List D) → ℕ → ℕ → List (EntSplit D L)
  | [], _, _ => []
  | (ename, dcols) :: rest, j, lastIdx =>
    splitOne (choice j) lastIdx ename dcols ((licksAll.lookup ename).getD []) ::
      splitAll choice licksAll rest (j + 1) (lastIdx + dcols.length)

/-- The range-map construction of `_train_valid_split` (dataset.py lines
300-310): iterate the per-entity index lists in order, assigning each entity
the half-open interval `[last_idx, last_idx + len(v))` and advancing
`last_idx` by `len(v)`. -/
def buildRanges (off : ℕ) : List (String × List ℕ) → List (String × ℕ × ℕ)
  | [] => []
  | (k, v) :: rest => (k, off, off + v.length) :: buildRanges (off + v.length) rest

/-- One partition's outputs of `_train_valid_split`:
`(dff, licks, ranges, indxs)`. -/
structure Bundle (D L : Type) where
  dff : List (String × List D)
  licks : List (String × List L)
  ranges : List (String × ℕ × ℕ)
  indxs : List (String × List ℕ)

/-- Model of `_train_valid_split(dff_all, licks_all, xv_folds, random_state)` with the
per-entity random draws supplied by the oracle `choice`.  Returns the train
bundle and the validation bundle. -/
def trainValidSplit {D L : Type} [Inhabited D] [Inhabited L]
    (dffAll : List (String × List D)) (licksAll : List (String × List L))
    (choice : ℕ → List ℕ) : Bundle D L × Bundle D L :=
  let ents := splitAll choice licksAll dffAll 0 0
  (⟨ents.map (fun e => (e.ename, e.dffT)),
    ents.map (fun e => (e.ename, e.lickT)),
    buildRanges 0 (ents.map (fun e => (e.ename, e.trainGlob))),
    ents.map (fun e => (e.ename, e.trainGlob))⟩,
   ⟨ents.map (fun e => (e.ename, e.dffV)),
    ents.map (fun e => (e.ename, e.lickV)),
    buildRanges 0 (ents.map (fun e => (e.ename, e.validGlob))),
    ents.map (fun e => (e.ename, e.validGlob))⟩)

/-- Model of `A1Dataset.__len__`: `sum(v.shape[1] for v in self.licks.values())`, the
sum of the lick tensors' trial-axis sizes across all entities. -/
def datasetLen {L : Type} (licks : List (String × List L)) : ℕ :=
  (licks.map (fun kv => kv.2.length)).sum

/-- The resolution of one scalar index by the generator expression of
`A1Dataset._generate_idxs`:
`((k, idx - a) for k, (a, b) in self.ranges.items() if a <= idx < b)`.
The index is an integer (Python ints may be negative); interval endpoints are
the natural numbers stored in the range map. -/
def generateOne (ranges : List (String × ℕ × ℕ)) (idx : ℤ) : List (String × ℤ) :=
  ranges.filterMap (fun kab =>
    if (kab.2.1 : ℤ) ≤ idx ∧ idx < (kab.2.2 : ℤ) then some (kab.1, idx - (kab.2.1 : ℤ))
    else none)

/-- Total sample count of a family of per-entity lists. -/
def totalLen {α : Type} (l : List (String × List α)) : ℕ :=
  (l.map (fun kv => kv.2.length)).sum

/-- Cumulative start offset of the j-th entity in a family of lists. -/
def pSum {α : Type} (l : List (String × List α)) (j : ℕ) : ℕ :=
  ((l.take j).map (fun kv => kv.2.length)).sum

/-- The full resolution of `A1Dataset._generate_idxs` over a list of scalar
indices: the double generator
`((k, idx - a) for idx in idxs for k, (a, b) in self.ranges.items() if a <= idx < b)`. -/
def resolveAll (ranges : List (String × ℕ × ℕ)) (idxs : List ℤ) : List (String × ℤ) :=
  idxs.flatMap (fun idx => generateOne ranges idx)

/-- The type of the argument `idx` received by `A1Dataset.__getitem__` /
`_generate_idxs`: a Python int, a list (or range) of ints, a slice (with
optional start/stop/step), or a value of any other type. -/
inductive IdxArg where
  | intIdx (i : ℤ)
  | listIdx (l : List ℤ)
  | sliceIdx (os ot ost : Option ℤ)
  | otherIdx

/-- Model of Python `slice(os, ot, ost).indices(len)` (CPython
`PySlice_GetIndicesEx`): `none` models the `ValueError` raised for a zero
step; otherwise defaults are filled in and start/stop are clamped to
`[lower, upper]` where `(lower, upper)` is `(-1, len-1)` for negative step
and `(0, len)` for positive step. -/
def sliceIndices (len : ℕ) (os ot ost : Option ℤ) : Option (ℤ × ℤ × ℤ) :=
  let L : ℤ := len
  let step := ost.getD 1
  if step = 0 then none
  else
    let lower : ℤ := if step < 0 then -1 else 0
    let upper : ℤ := if step < 0 then L - 1 else L
    let start := match os with
      | none => if step < 0 then upper else lower
      | some s => if s < 0 then max (s + L) lower else min s upper
    let stop := match ot with
      | none => if step < 0 then lower else upper
      | some t => if t < 0 then max (t + L) lower else min t upper
    some (start, stop, step)

/-- Model of Python `range(start, stop, step)` as a list of ints
(`step ≠ 0`; an empty list for a zero step never arises in
`_generate_idxs` because `slice.indices` raises first). -/
def pythonRange (start stop step : ℤ) : List ℤ :=
  if 0 < step then
    (List.range ((stop - start + step - 1) / step).toNat).map (fun k => start + step * k)
  else if step < 0 then
    (List.range ((start - stop - step - 1) / (-step)).toNat).map (fun k => start + step * k)
  else []

/-- Model of `A1Dataset._generate_idxs` (dataset.py lines 120-130): an `int` is
wrapped in a singleton list, a `list`/`range` is used as is, a `slice` is
expanded via `idx.indices(len(self))` into its range, and any other type
raises `RuntimeError("invalid indexing encountered")`; the resulting index
list is then resolved through the range map by the generator expression. -/
def generateIdxs (len : ℕ) (ranges : List (String × ℕ × ℕ)) :
    IdxArg → Except String (List (String × ℤ))
  | .intIdx i => .ok (resolveAll ranges [i])
  | .listIdx l => .ok (resolveAll ranges l)
  | .sliceIdx os ot ost =>
    match sliceIndices len os ot ost with
    | some (s, t, st) => .ok (resolveAll ranges (pythonRange s t st))
    | none => .error "slice step cannot be zero"
  | .otherIdx => .error "invalid indexing encountered"

/-- The per-field lists built by the loop of `A1Dataset.__getitem__`
(dataset.py lines 90-104): one entry per resolved (entity, local index)
pair — encoded entity id, encoded label, encoded frequency, dff slice and
lick column.  `df` is modelled by the per-entity label and frequency lookup
functions. -/
def getItemLists {D L : Type} [Inhabited D] [Inhabited L]
    (ranges : List (String × ℕ × ℕ))
    (dfLabel : String → ℕ → String) (dfFreq : String → ℕ → ℤ)
    (dff : List (String × List D)) (licks : List (String × List L))
    (n2i : String → ℕ) (l2i : String → ℕ) (f2i : ℤ → ℕ) (idx : ℤ) :
    List ℕ × List ℕ × List ℕ × List D × List L :=
  let pairs := generateOne ranges idx
  (pairs.map (fun p => n2i p.1),
   pairs.map (fun p => l2i (dfLabel p.1 p.2.toNat)),
   pairs.map (fun p => f2i (dfFreq p.1 p.2.toNat)),
   pairs.map (fun p => ((dff.lookup p.1).getD []).getD p.2.toNat default),
   pairs.map (fun p => ((licks.lookup p.1).getD []).getD p.2.toNat default))

/-- One pass of `w[indices] = 1 / f` in `A1Dataset._compute_sample_weights`:
every position whose label equals `elem` gets weight `1 / count(elem)`
(positions beyond the label table are untouched). -/
def weightStep (labels : List String) (w : List ℚ) (elem : String) : List ℚ :=
  w.mapIdx (fun i wi =>
    if labels[i]? = some elem then 1 / (labels.count elem : ℚ) else wi)

/-- Model of `A1Dataset._compute_sample_weights` (dataset.py lines 132-138):
`w = np.ones(len(self))`, then for each distinct label `elem` with frequency
`f` in `Counter(self.df.label)`, `w[np.where(self.df.label == elem)] = 1/f`.
`Counter.most_common()` enumerates the distinct labels by decreasing count;
the updated position sets are pairwise disjoint, so any enumeration order of
the distinct labels yields the same vector, and the first-occurrence order
`labels.dedup` is used here. -/
def computeSampleWeights (lenSelf : ℕ) (labels : List String) : List ℚ :=
  labels.dedup.foldl (weightStep labels) (List.replicate lenSelf 1)

/-- Model of `'target' in k` for a channel name `k` (Python substring test). -/
def containsTarget (k : String) : Bool :=
  decide ("target".toList <:+: k.toList)

/-- Model of `np.where(v == 1)[0]` for a per-trial indicator channel. -/
def whereEqOne (v : List ℤ) : List ℕ :=
  (List.range v.length).filter (fun i => v.getD i 0 == 1)

/-- The inner loop `for i in np.where(v == 1)[0]: trial_labels[i] = k` of
`_create_ds` (dataset.py lines 205-208). -/
def applyChannel (lbls : List String) (k : String) (v : List ℤ) : List String :=
  (whereEqOne v).foldl (fun ls i => ls.set i k) lbls

/-- The behavior-trial labeling loop of `_create_ds` (dataset.py lines
203-208): start from `{idx: '_null_'}` for every behavior trial, then for
each trial-info channel `(k, v)` in iteration order whose name does not
contain `'target'`, set `trial_labels[i] = k` at every trial with `v[i] == 1`
(later channels overwrite earlier ones).  The trial-label dict is modelled
as a list indexed by trial, which is faithful whenever every channel has
exactly `ntrials_b` entries (the recording invariant). -/
def trialLabelsB (nb : ℕ) (info : List (String × List ℤ)) : List String :=
  info.foldl
    (fun lbls kv => if containsTarget kv.1 then lbls else applyChannel lbls kv.1 kv.2)
    (List.replicate nb "_null_")

/-- The complete trial labeling of `_create_ds` (lines 203-210): behavior
labels followed by
`trial_labels.update({idx: 'passive' for idx in range(ntrials_b, ntrials_b + ntrials_p)})`. -/
def trialLabels (nb npas : ℕ) (info : List (String × List ℤ)) : List String :=
  trialLabelsB nb info ++ List.replicate npas "passive"

/-- The label/frequency allow-list filtering step of `_create_ds` (dataset.py
lines 215-227), together with the consistency `assert` that immediately
precedes it (`assert dff.shape[1] == licks.shape[1] == len(trial_labels) ==
len(stim_freqs)`), modelled as `none` on assertion failure.  `licks` and
`dff` are lists of per-trial slices; `include_indxs` is
`np.where(np.logical_and(trial_bool, freq_bool))[0]` and the four outputs are
the label list, frequency list, lick tensor and dff tensor restricted to it. -/
def createDsFilter {LC DC : Type} [Inhabited LC] [Inhabited DC]
    (incT : List String) (incF : List ℤ)
    (labels : List String) (freqs : List ℤ) (licks : List LC) (dff : List DC) :
    Option (List String × List ℤ × List LC × List DC) :=
  if dff.length = licks.length ∧ licks.length = labels.length ∧
      labels.length = freqs.length then
    let includeIdxs := (List.range labels.length).filter
      (fun i => incT.contains (labels.getD i "") && incF.contains (freqs.getD i 0))
    some (includeIdxs.map (fun i => labels.getD i ""),
          includeIdxs.map (fun i => freqs.getD i 0),
          sliceCols licks includeIdxs,
          sliceCols dff includeIdxs)
  else none

/-- Model of `x.mean()` over a 1-D array of exact values. -/
def qMean (x : List ℚ) : ℚ := x.sum / x.length

/-- Model of `x.var()` (numpy population variance, `ddof=0`): the mean of the squared
deviations.  `x.std()` is its square root; the code compares against
`nb_std * x.std()`, which this development expresses through the equivalent
squared comparison and proves equal to the square-root form over `ℝ`. -/
def qVar (x : List ℚ) : ℚ := ((x.map (fun v => (v - qMean x) ^ 2)).sum) / x.length

/-- Model of `np.where(np.logical_and(bright_cells, nonnan) == 1)[0]` in
`get_good_cells` (process.py lines 565-568): the candidate cells, i.e. the
bright cells whose per-cell time-and-trial-averaged norm is not NaN.  The
per-cell norm array `cells_norm` is taken as input, with `none` standing for
NaN entries. -/
def candidateIdxs (bright : List Bool) (norm : List (Option ℚ)) : List ℕ :=
  (List.range norm.length).filter
    (fun i => bright.getD i false && (norm.getD i none).isSome)

/-- Model of `x = cells_norm[nonnan_bright_indxs]`: the candidate norms. -/
def candNorms (bright : List Bool) (norm : List (Option ℚ)) : List ℚ :=
  (candidateIdxs bright norm).map (fun i => (norm.getD i none).getD 0)

/-- Model of `np.where(x - x.mean() > nb_std * x.std())[0]` in `get_good_cells`
(process.py line 570), written through the squared comparison
`x_i - mean > 0 ∧ (x_i - mean)² > nb_std² · var`, which is equivalent to the
square-root form for the nonnegative `nb_std` the callers pass (proved over
`ℝ` in the corresponding theorem). -/
def outlierPos (x : List ℚ) (nb : ℕ) : List ℕ :=
  (List.range x.length).filter
    (fun i => decide (0 < x.getD i 0 - qMean x) &&
      decide ((nb : ℚ) ^ 2 * qVar x < (x.getD i 0 - qMean x) ^ 2))

/-- Model of `get_good_cells` for one recording dict (process.py lines 564-572):
returns `(good_cells, outlier_indxs, nonnan_bright_indxs)` where
`good_cells = np.delete(nonnan_bright_indxs, outlier_indxs)`.  A pure
function of its inputs (no randomness). -/
def getGoodCells (bright : List Bool) (norm : List (Option ℚ)) (nb : ℕ) :
    List ℕ × List ℕ × List ℕ :=
  let cand := candidateIdxs bright norm
  let x := candNorms bright norm
  let out := outlierPos x nb
  (npDelete cand 0 out, out, cand)

/-- The destination path computed by `organize_data` (process.py lines
450-456): `pjoin(base_dir, 'python_processed', "organized_nb_std={:d}.h5")`. -/
def saveFilePath (baseDir : String) (nbStd : ℕ) : String :=
  baseDir ++ "/python_processed/organized_nb_std=" ++ toString nbStd ++ ".h5"

/-- Model of `organize_data(base_dir, nb_std)` at the file-system level (process.py
lines 450-461): the file system is an association list from paths to store
contents; if `os.path.isfile(save_file)` the function returns immediately
without touching the store (a whole-file existence check — the store's
contents are never read), otherwise it writes the freshly built store
(`build`, the deterministic function of the raw data under `base_dir` and
`nb_std` computed by the rest of the function body). -/
def organizeData {S : Type} (fs : List (String × S)) (baseDir : String) (nbStd : ℕ)
    (build : S) : List (String × S) :=
  if (fs.lookup (saveFilePath baseDir nbStd)).isSome then fs
  else (saveFilePath baseDir nbStd, build) :: fs

/-- Concrete dff tensors used by witnesses: entity A with 3 trials, entity B
with 2 trials. -/
def wDff : List (String × List ℕ) := [("A", [10, 20, 30]), ("B", [7, 8])]

/-- Concrete lick tensors used by witnesses. -/
def wLicks : List (String × List ℕ) := [("A", [0, 0, 0]), ("B", [0, 0])]

/-- Concrete per-entity random draws used by witnesses. -/
def wChoice : ℕ → List ℕ := fun j => if j = 0 then [1] else [0]

/-- Concrete behavior trial-info channels used by witnesses: two behavior
trials, channels `hit`, `miss` and the excluded `target7k`. -/
def wInfo : List (String × List ℤ) :=
  [("hit", [1, 0]), ("miss", [0, 1]), ("target7k", [1, 1])]

lemma buildRanges_length (l : List (String × List ℕ)) (off : ℕ) :
    (buildRanges off l).length = l.length := by
  induction l generalizing off with
  | nil => rfl
  | cons kv rest ih =>
    obtain ⟨k, v⟩ := kv
    simp [buildRanges, ih]

lemma buildRanges_bounds (l : List (String × List ℕ)) (off : ℕ) :
    ∀ e ∈ buildRanges off l, off ≤ e.2.1 ∧ e.2.1 ≤ e.2.2 ∧ e.2.2 ≤ off + totalLen l := by
  induction l generalizing off with
  | nil => intro e he; simp [buildRanges] at he
  | cons kv rest ih =>
    obtain ⟨k, v⟩ := kv
    intro e he
    simp only [buildRanges, List.mem_cons] at he
    rcases he with rfl | he
    · simp only [totalLen, List.map_cons, List.sum_cons]
      omega
    · have h := ih (off + v.length) e he
      simp only [totalLen, List.map_cons, List.sum_cons] at h ⊢
      omega

lemma buildRanges_get (l : List (String × List ℕ)) (off : ℕ) (j : ℕ) (h : j < l.length) :
    (buildRanges off l).get ⟨j, by rw [buildRanges_length]; exact h⟩ =
      ((l.get ⟨j, h⟩).1, off + pSum l j, off + pSum l j + (l.get ⟨j, h⟩).2.length) := by
  induction l generalizing off j with
  | nil => exact absurd h (by simp)
  | cons kv rest ih =>
    obtain ⟨k, v⟩ := kv
    cases j with
    | zero => simp [buildRanges, pSum]
    | succ j =>
      have hj : j < rest.length := by simpa using h
      have := ih (off + v.length) j hj
      simp only [buildRanges, List.get_cons_succ, pSum, List.take_succ_cons,
        List.map_cons, List.sum_cons] at this ⊢
      rw [this]
      simp only [Prod.mk.injEq]
      exact ⟨trivial, by omega, by omega⟩

lemma generateOne_nil_of_out (l : List (String × List ℕ)) (off : ℕ) (i : ℤ) :
    (i < (off : ℤ) ∨ (off : ℤ) + totalLen l ≤ i) →
    generateOne (buildRanges off l) i = [] := by
  induction l generalizing off with
  | nil => intro _; rfl
  | cons kv rest ih =>
    obtain ⟨k, v⟩ := kv
    intro hi
    simp only [totalLen, List.map_cons, List.sum_cons, Nat.cast_add] at hi
    simp only [generateOne, buildRanges, List.filterMap_cons]
    rw [if_neg, ← generateOne]
    · apply ih (off + v.length)
      simp only [totalLen, Nat.cast_add]
      omega
    · omega

lemma generateOne_singleton (l : List (String × List ℕ)) (off : ℕ) (i : ℤ)
    (h0 : (off : ℤ) ≤ i) (h1 : i < (off : ℤ) + totalLen l) :
    ∃ j, ∃ h : j < l.length,
      generateOne (buildRanges off l) i =
        [((l.get ⟨j, h⟩).1, i - ((off + pSum l j : ℕ) : ℤ))] ∧
      ((off + pSum l j : ℕ) : ℤ) ≤ i ∧
      i < ((off + pSum l j : ℕ) : ℤ) + ((l.get ⟨j, h⟩).2.length : ℤ) := by
  induction l generalizing off with
  | nil =>
    exfalso
    simp only [totalLen, List.map_nil, List.sum_nil, Nat.cast_zero, add_zero] at h1
    omega
  | cons kv rest ih =>
    obtain ⟨k, v⟩ := kv
    simp only [totalLen, List.map_cons, List.sum_cons, Nat.cast_add] at h1
    by_cases hc : i < (off : ℤ) + v.length
    · refine ⟨0, by simp, ?_, ?_, ?_⟩
      · simp only [generateOne, buildRanges, List.filterMap_cons]
        rw [if_pos (by constructor <;> omega), ← generateOne]
        rw [generateOne_nil_of_out rest (off + v.length) i (by left; omega)]
        simp [pSum]
      · simp only [pSum, List.take_zero, List.map_nil, List.sum_nil, add_zero]
        exact h0
      · exact hc
    · obtain ⟨j, hj, hres, hlo, hhi⟩ :=
        ih (off + v.length) (by omega) (by simp only [totalLen, Nat.cast_add]; omega)
      refine ⟨j + 1, by simpa using hj, ?_, ?_, ?_⟩
      · simp only [generateOne, buildRanges, List.filterMap_cons]
        rw [if_neg (by omega), ← generateOne]
        rw [show generateOne (buildRanges (off + v.length) rest) i =
            [((rest.get ⟨j, hj⟩).1, i - ((off + v.length + pSum rest j : ℕ) : ℤ))] from hres]
        simp only [List.get_cons_succ, pSum, List.take_succ_cons, List.map_cons,
          List.sum_cons, List.cons.injEq, Prod.mk.injEq, and_true]
        exact ⟨trivial, by omega⟩
      · have h2 := hlo
        simp only [pSum] at h2
        simp only [pSum, List.take_succ_cons, List.map_cons, List.sum_cons]
        convert h2 using 2
        omega
      · have h2 := hhi
        simp only [pSum] at h2
        simp only [pSum, List.take_succ_cons, List.map_cons, List.sum_cons,
          List.get_cons_succ]
        convert h2 using 3
        omega

/-- Any range-map entry whose interval contains the index contributes its
pair to the generator output. -/
lemma mem_generateOne_of_mem (ranges : List (String × ℕ × ℕ)) (i : ℤ)
    (e : String × ℕ × ℕ) (he : e ∈ ranges) (hc : (e.2.1 : ℤ) ≤ i ∧ i < (e.2.2 : ℤ)) :
    (e.1, i - (e.2.1 : ℤ)) ∈ generateOne ranges i := by
  simp only [generateOne, List.mem_filterMap]
  exact ⟨e, he, by rw [if_pos hc]⟩

lemma weights_foldl (labels : List String) (es : List String) (w : List ℚ) (i : ℕ)
    (Lb : String) (hL : labels[i]? = some Lb) (hw : i < w.length) :
    (es.foldl (weightStep labels) w)[i]? =
      if Lb ∈ es then some (1 / (labels.count Lb : ℚ)) else w[i]? := by
  induction es generalizing w with
  | nil => simp
  | cons e es ih =>
    have hw2 : i < (weightStep labels w e).length := by
      simpa [weightStep, List.length_mapIdx] using hw
    rw [List.foldl_cons, ih (weightStep labels w e) hw2]
    have hwi : w[i]? = some w[i] := List.getElem?_eq_getElem hw
    have hstep : (weightStep labels w e)[i]? =
        if e = Lb then some (1 / (labels.count Lb : ℚ)) else w[i]? := by
      simp only [weightStep, List.getElem?_mapIdx, hwi, hL, Option.map_some]
      by_cases he : e = Lb
      · subst he
        simp
      · have : ¬ (some Lb = some e) := by simpa using fun h => he h.symm
        simp [this, he]
    by_cases hmem : Lb ∈ es
    · simp [hmem]
    · rw [if_neg hmem, hstep]
      by_cases he : e = Lb
      · simp [he]
      · have hne : ¬ Lb = e := fun h => he h.symm
        have hni : Lb ∉ e :: es := by simp [List.mem_cons, hne, hmem]
        simp [hni, he]

/-- C4: for every A1Dataset, the sample_weights vector computed at
construction assigns to every sample the inverse of the number of
occurrences of that sample's label in the label table backing this instance
(weight 1/f for a label occurring f times); train and validation instances
compute their weights from their own label subsets, here represented by the
`labels` column actually backing the instance. -/
theorem sampleWeights_inverse_label_freq (lenSelf : ℕ) (labels : List String)
    (hlen : labels.length = lenSelf) (i : ℕ) (hi : i < lenSelf) :
    (computeSampleWeights lenSelf labels).getD i 0 =
      1 / (labels.count (labels.getD i "") : ℚ) := by
  have hil : i < labels.length := by omega
  have hL : labels[i]? = some (labels.getD i "") := by
    rw [List.getD_eq_getElem _ _ hil]
    exact List.getElem?_eq_getElem hil
  have hw : i < (List.replicate lenSelf (1 : ℚ)).length := by simpa using hi
  have h := weights_foldl labels labels.dedup (List.replicate lenSelf 1) i
    (labels.getD i "") hL hw
  have hmem : labels.getD i "" ∈ labels.dedup := by
    rw [List.mem_dedup, List.getD_eq_getElem _ _ hil]
    exact List.getElem_mem hil
  rw [computeSampleWeights, List.getD_eq_getElem?_getD, h, if_pos hmem]
  rfl

/-- Witness for C4: a table with label counts `{hit: 2, miss: 1}` gives the
"hit" sample at position 0 the weight `1 / 2`. -/
theorem sampleWeights_inverse_label_freq_witness :
    (["hit", "hit", "miss"] : List String).length = 3 ∧ (0 : ℕ) < 3 ∧
    (computeSampleWeights 3 ["hit", "hit", "miss"]).getD 0 0 =
      1 / ((["hit", "hit", "miss"] : List String).count
        ((["hit", "hit", "miss"] : List String).getD 0 "") : ℚ) :=
  ⟨rfl, by decide,
   sampleWeights_inverse_label_freq 3 ["hit", "hit", "miss"] rfl 0 (by decide)⟩

/-- C7: after the label/frequency allow-list filtering step of `_create_ds`,
the retained trial count, label count, frequency count, and lick-tensor
trial-axis length are all equal; a violation of the pre-filter consistency
equality is a fatal error (the `assert`, modelled by `none`), never a silent
coercion. -/
theorem createDsFilter_lengths {LC DC : Type} [Inhabited LC] [Inhabited DC]
    (incT : List String) (incF : List ℤ) (labels : List String) (freqs : List ℤ)
    (licks : List LC) (dff : List DC) :
    (∀ t f l d, createDsFilter incT incF labels freqs licks dff = some (t, f, l, d) →
      t.length = f.length ∧ f.length = l.length ∧ l.length = d.length) ∧
    (¬(dff.length = licks.length ∧ licks.length = labels.length ∧
        labels.length = freqs.length) →
      createDsFilter incT incF labels freqs licks dff = none) := by
  constructor
  · intro t f l d hsome
    rw [createDsFilter] at hsome
    split at hsome
    · simp only [Option.some.injEq, Prod.mk.injEq] at hsome
      obtain ⟨ht, hf, hl, hd⟩ := hsome
      subst ht; subst hf; subst hl; subst hd
      simp [sliceCols]
    · exact absurd hsome (by simp)
  · intro hne
    rw [createDsFilter, if_neg hne]

/-- Witness for C7: a concrete filtered dataset where all four retained
components have the same length, and a mismatched input that is rejected. -/
theorem createDsFilter_lengths_witness :
    (createDsFilter ["hit"] [7] ["hit", "miss"] [7, 7] ([5, 6] : List ℕ)
        ([3, 4] : List ℕ) = some (["hit"], [7], [5], [3])) ∧
    (["hit"] : List String).length = ([7] : List ℤ).length ∧
    ([7] : List ℤ).length = ([5] : List ℕ).length ∧
    ([5] : List ℕ).length = ([3] : List ℕ).length :=
  ⟨by decide,
   (createDsFilter_lengths ["hit"] [7] ["hit", "miss"] [7, 7] [5, 6] [3, 4]).1
     ["hit"] [7] [5] [3] (by decide)⟩

/-- C8: indexing dispatch of `_generate_idxs`: a scalar integer is resolved
as a single index, a slice is expanded to its range, a list has each element
resolved independently, and any other indexing type fails with the
invalid-index error and never returns a result. -/
theorem generateIdxs_dispatch (len : ℕ) (ranges : List (String × ℕ × ℕ)) :
    (∀ i : ℤ, generateIdxs len ranges (.intIdx i) = .ok (generateOne ranges i)) ∧
    (∀ l : List ℤ, generateIdxs len ranges (.listIdx l) =
      .ok ((l.map (fun i => generateOne ranges i)).flatten)) ∧
    (∀ os ot ost s t st, sliceIndices len os ot ost = some (s, t, st) →
      generateIdxs len ranges (.sliceIdx os ot ost) =
        .ok (resolveAll ranges (pythonRange s t st))) ∧
    (∀ res, generateIdxs len ranges .otherIdx ≠ .ok res) ∧
    generateIdxs len ranges .otherIdx = .error "invalid indexing encountered" := by
  refine ⟨?_, ?_, ?_, ?_, rfl⟩
  · intro i
    simp [generateIdxs, resolveAll]
  · intro l
    simp [generateIdxs, resolveAll, List.flatMap_def]
  · intro os ot ost s t st h
    simp [generateIdxs, h]
  · intro res
    simp [generateIdxs]

/-- Witness for C8: the full-slice argument with the default bounds expands
to `range(0, len, 1)` and resolves through the range map. -/
theorem generateIdxs_dispatch_witness :
    sliceIndices 2 none none none = some (0, 2, 1) ∧
    generateIdxs 2 [("A", 0, 2)] (.sliceIdx none none none) =
      .ok (resolveAll [("A", 0, 2)] (pythonRange 0 2 1)) :=
  ⟨by decide,
   (generateIdxs_dispatch 2 [("A", 0, 2)]).2.2.1 none none none 0 2 1 (by decide)⟩

/-- C9: if the destination store file already exists when the store builder
is invoked, building is skipped entirely (a whole-file existence check), so
a second invocation with the same inputs and destination produces no change
to the store. -/
theorem organizeData_idempotent {S : Type} (fs : List (String × S)) (baseDir : String)
    (nbStd : ℕ) (build : S) :
    (∀ s₀, fs.lookup (saveFilePath baseDir nbStd) = some s₀ →
      organizeData fs baseDir nbStd build = fs) ∧
    organizeData (organizeData fs baseDir nbStd build) baseDir nbStd build =
      organizeData fs baseDir nbStd build := by
  constructor
  · intro s₀ h
    rw [organizeData, if_pos (by rw [h]; rfl)]
  · by_cases h : (fs.lookup (saveFilePath baseDir nbStd)).isSome
    · have h1 : organizeData fs baseDir nbStd build = fs := by
        rw [organizeData, if_pos h]
      rw [h1]
      exact h1
    · have h1 : organizeData fs baseDir nbStd build =
          (saveFilePath baseDir nbStd, build) :: fs := by
        rw [organizeData, if_neg h]
      rw [h1, organizeData, if_pos (by simp [List.lookup])]

/-- Witness for C9: with the destination file already present, the builder
leaves the store untouched; and a second call after a build is a no-op. -/
theorem organizeData_idempotent_witness :
    organizeData [(saveFilePath "base" 1, 0)] "base" 1 5 =
      [(saveFilePath "base" 1, 0)] ∧
    organizeData (organizeData ([] : List (String × ℕ)) "base" 1 5) "base" 1 5 =
      organizeData [] "base" 1 5 :=
  ⟨(organizeData_idempotent [(saveFilePath "base" 1, 0)] "base" 1 5).1 0
     (by simp [List.lookup]),
   (organizeData_idempotent [] "base" 1 5).2⟩

lemma length_filter_partition {α : Type} (l : List α) (p : α → Bool) :
    (l.filter p).length + (l.filter (fun a => !(p a))).length = l.length := by
  induction l with
  | nil => rfl
  | cons a l ih =>
    cases h : p a <;> simp [List.filter_cons, h] <;> omega

lemma npDelete_range (n : ℕ) (pos : List ℕ) :
    npDelete (List.range n) 0 pos = (List.range n).filter (fun i => !(pos.contains i)) := by
  rw [npDelete, List.length_range]
  have hcg : ∀ i ∈ (List.range n).filter (fun i => !(pos.contains i)),
      (List.range n).getD i 0 = i := by
    intro i hi
    have hin : i < n := List.mem_range.mp (List.mem_filter.mp hi).1
    rw [List.getD_eq_getElem _ _ (by simpa using hin)]
    exact List.getElem_range i _
  rw [List.map_congr_left hcg]
  simp

lemma mem_npDelete_range (n : ℕ) (pos : List ℕ) (x : ℕ) :
    x ∈ npDelete (List.range n) 0 pos ↔ x < n ∧ x ∉ pos := by
  rw [npDelete_range]
  simp [List.mem_filter, List.mem_range]

lemma length_filter_mem (n : ℕ) (pos : List ℕ) (hnd : pos.Nodup)
    (hlt : ∀ x ∈ pos, x < n) :
    ((List.range n).filter (fun i => pos.contains i)).length = pos.length := by
  have h1 : ((List.range n).filter (fun i => pos.contains i)).Nodup :=
    (List.filter_sublist _).nodup (List.nodup_range n)
  have hmm : ∀ a, a ∈ (List.range n).filter (fun i => pos.contains i) ↔ a ∈ pos := by
    intro a
    simp only [List.mem_filter, List.mem_range]
    constructor
    · rintro ⟨_, hc⟩
      simpa using hc
    · intro ha
      exact ⟨hlt a ha, by simpa using ha⟩
  exact ((List.perm_ext_iff_of_nodup h1 hnd).mpr hmm).length_eq

lemma npDelete_range_length (n : ℕ) (pos : List ℕ) (hnd : pos.Nodup)
    (hlt : ∀ x ∈ pos, x < n) :
    (npDelete (List.range n) 0 pos).length = n - pos.length := by
  rw [npDelete_range]
  have hpart := length_filter_partition (List.range n) (fun i => pos.contains i)
  have hin := length_filter_mem n pos hnd hlt
  have hlen : (List.range n).length = n := List.length_range n
  omega

lemma splitAll_get? {D L : Type} [Inhabited D] [Inhabited L] (choice : ℕ → List ℕ)
    (licksAll : List (String × List L)) (dffAll : List (String × List D))
    (j0 off0 p : ℕ) :
    (splitAll choice licksAll dffAll j0 off0)[p]? =
      (dffAll[p]?).map (fun kv =>
        splitOne (choice (j0 + p)) (off0 + pSum dffAll p) kv.1 kv.2
          ((licksAll.lookup kv.1).getD [])) := by
  induction dffAll generalizing j0 off0 p with
  | nil => simp [splitAll]
  | cons kv rest ih =>
    obtain ⟨k, v⟩ := kv
    cases p with
    | zero => simp [splitAll, pSum]
    | succ p =>
      rw [show splitAll choice licksAll ((k, v) :: rest) j0 off0 =
          splitOne (choice j0) off0 k v ((licksAll.lookup k).getD []) ::
            splitAll choice licksAll rest (j0 + 1) (off0 + v.length) from rfl]
      rw [List.getElem?_cons_succ, List.getElem?_cons_succ, ih]
      have e1 : j0 + 1 + p = j0 + (p + 1) := by omega
      have e2 : off0 + v.length + pSum rest p = off0 + pSum ((k, v) :: rest) (p + 1) := by
        simp only [pSum, List.take_succ_cons, List.map_cons, List.sum_cons]
        omega
      rw [e1, e2]

/-- C3: every entity processed by `_train_valid_split` with `num_samples`
trials gets a validation subset of exactly `num_samples // xv_folds`
distinct trial indices, the train subset is the remaining indices, the two
are disjoint, their union is the full index set `{0, ..., num_samples-1}`,
and each entity's local split is a function of its own draw and trial count
only (`validLoc`/`trainLoc` are exactly `sorted(choice p)` and
`np.delete(arange(num), sorted(choice p))`, independent of the other
entities). -/
theorem per_entity_split {D L : Type} [Inhabited D] [Inhabited L]
    (dffAll : List (String × List D)) (licksAll : List (String × List L))
    (choice : ℕ → List ℕ) (folds : ℕ) (hfolds : 1 ≤ folds)
    (p : ℕ) (h : p < dffAll.length) (e : EntSplit D L)
    (he : (splitAll choice licksAll dffAll 0 0)[p]? = some e)
    (hnd : (choice p).Nodup)
    (hlt : ∀ x ∈ choice p, x < (dffAll.get ⟨p, h⟩).2.length)
    (hsz : (choice p).length = (dffAll.get ⟨p, h⟩).2.length / folds) :
    e.validLoc.length = (dffAll.get ⟨p, h⟩).2.length / folds ∧
    e.validLoc.Nodup ∧
    e.trainLoc.length =
      (dffAll.get ⟨p, h⟩).2.length - (dffAll.get ⟨p, h⟩).2.length / folds ∧
    (∀ x ∈ e.validLoc, x ∉ e.trainLoc) ∧
    (∀ x, (x ∈ e.validLoc ∨ x ∈ e.trainLoc) ↔ x < (dffAll.get ⟨p, h⟩).2.length) ∧
    e.validLoc = List.insertionSort (· ≤ ·) (choice p) ∧
    e.trainLoc = npDelete (List.range (dffAll.get ⟨p, h⟩).2.length) 0
      (List.insertionSort (· ≤ ·) (choice p)) := by
  rw [splitAll_get? choice licksAll dffAll 0 0 p] at he
  rw [List.getElem?_eq_getElem h] at he
  simp only [Option.map_some', Option.some.injEq, Nat.zero_add] at he
  subst he
  set num := (dffAll.get ⟨p, h⟩).2.length with hnum
  have hglen : (dffAll[p]).2.length = num := rfl
  set c := choice p with hc
  have hperm : (List.insertionSort (· ≤ ·) c).Perm c := List.perm_insertionSort _ c
  have hvnodup : (List.insertionSort (· ≤ ·) c).Nodup := hperm.nodup_iff.mpr hnd
  have hvlen : (List.insertionSort (· ≤ ·) c).length = c.length := hperm.length_eq
  have hvmem : ∀ x, x ∈ List.insertionSort (· ≤ ·) c ↔ x ∈ c := fun x => hperm.mem_iff
  have hvlt : ∀ x ∈ List.insertionSort (· ≤ ·) c, x < num := by
    intro x hx
    exact hlt x ((hvmem x).mp hx)
  have heV : (splitOne c (pSum dffAll p) (dffAll[p]).1 (dffAll[p]).2
      ((licksAll.lookup (dffAll[p]).1).getD [])).validLoc =
      List.insertionSort (· ≤ ·) c := rfl
  have heT : (splitOne c (pSum dffAll p) (dffAll[p]).1 (dffAll[p]).2
      ((licksAll.lookup (dffAll[p]).1).getD [])).trainLoc =
      npDelete (List.range num) 0 (List.insertionSort (· ≤ ·) c) := rfl
  rw [heV, heT]
  refine ⟨by rw [hvlen, hsz], hvnodup, ?_, ?_, ?_, rfl, rfl⟩
  · rw [npDelete_range_length num _ hvnodup hvlt, hvlen, hsz]
  · intro x hx
    rw [mem_npDelete_range]
    intro hcon
    exact hcon.2 hx
  · intro x
    rw [mem_npDelete_range]
    constructor
    · rintro (hx | hx)
      · exact hvlt x hx
      · exact hx.1
    · intro hx
      by_cases hv : x ∈ List.insertionSort (· ≤ ·) c
      · exact Or.inl hv
      · exact Or.inr ⟨hx, hv⟩

/-- Witness for C3: entity A (3 trials, draw `[1]`, 3 folds) splits into
validation `[1]` and train `[0, 2]`. -/
theorem per_entity_split_witness :
    1 ≤ 3 ∧
    (splitAll wChoice wLicks wDff 0 0)[0]? =
      some (⟨"A", 3, [1], [0, 2], [20], [10, 30], [0], [0, 0], [1], [0, 2]⟩ :
        EntSplit ℕ ℕ) ∧
    (wChoice 0).Nodup ∧
    (∀ x ∈ wChoice 0, x < (wDff.get ⟨0, by decide⟩).2.length) ∧
    (wChoice 0).length = (wDff.get ⟨0, by decide⟩).2.length / 3 ∧
    (([1] : List ℕ).length = (wDff.get ⟨0, by decide⟩).2.length / 3 ∧
      ([1] : List ℕ).Nodup ∧
      ([0, 2] : List ℕ).length =
        (wDff.get ⟨0, by decide⟩).2.length - (wDff.get ⟨0, by decide⟩).2.length / 3 ∧
      (∀ x ∈ ([1] : List ℕ), x ∉ ([0, 2] : List ℕ)) ∧
      (∀ x, (x ∈ ([1] : List ℕ) ∨ x ∈ ([0, 2] : List ℕ)) ↔
        x < (wDff.get ⟨0, by decide⟩).2.length) ∧
      ([1] : List ℕ) = List.insertionSort (· ≤ ·) (wChoice 0) ∧
      ([0, 2] : List ℕ) = npDelete (List.range (wDff.get ⟨0, by decide⟩).2.length) 0
        (List.insertionSort (· ≤ ·) (wChoice 0))) := by
  refine ⟨by decide, by rfl, by decide, by decide, by decide, ?_⟩
  exact per_entity_split wDff wLicks wChoice 3 (by decide) 0 (by decide)
    ⟨"A", 3, [1], [0, 2], [20], [10, 30], [0], [0, 0], [1], [0, 2]⟩
    (by rfl) (by decide) (by decide) (by decide)

lemma foldl_set_length (k : String) (pos : List ℕ) (lbls : List String) :
    (pos.foldl (fun ls i => ls.set i k) lbls).length = lbls.length := by
  induction pos generalizing lbls with
  | nil => rfl
  | cons j pos ih =>
    rw [List.foldl_cons, ih, List.length_set]

lemma foldl_set_get_notmem (k : String) (pos : List ℕ) (lbls : List String) (i : ℕ)
    (hmem : i ∉ pos) :
    (pos.foldl (fun ls i => ls.set i k) lbls)[i]? = lbls[i]? := by
  induction pos generalizing lbls with
  | nil => rfl
  | cons j pos ih =>
    have hj : j ≠ i := fun hji => hmem (hji ▸ List.mem_cons_self j pos)
    have hp : i ∉ pos := fun hp => hmem (List.mem_cons_of_mem j hp)
    rw [List.foldl_cons, ih _ hp, List.getElem?_set_ne hj]

lemma foldl_set_get_mem (k : String) (pos : List ℕ) (lbls : List String) (i : ℕ)
    (hi : i < lbls.length) (hmem : i ∈ pos) :
    (pos.foldl (fun ls i => ls.set i k) lbls)[i]? = some k := by
  induction pos generalizing lbls with
  | nil => exact absurd hmem (List.not_mem_nil i)
  | cons j pos ih =>
    rw [List.foldl_cons]
    by_cases hp : i ∈ pos
    · exact ih (lbls.set j k) (by rw [List.length_set]; exact hi) hp
    · have hij : i = j := by
        rcases List.mem_cons.mp hmem with hh | hh
        · exact hh
        · exact absurd hh hp
      subst hij
      rw [foldl_set_get_notmem k pos _ i hp, List.getElem?_set_self hi]

lemma applyChannel_get (lbls : List String) (k : String) (v : List ℤ) (i : ℕ)
    (hi : i < lbls.length) :
    (applyChannel lbls k v)[i]? =
      if i < v.length ∧ v.getD i 0 = 1 then some k else lbls[i]? := by
  rw [applyChannel]
  by_cases hm : i ∈ whereEqOne v
  · have hc : i < v.length ∧ v.getD i 0 = 1 := by
      have := List.mem_filter.mp hm
      exact ⟨List.mem_range.mp this.1, by simpa using this.2⟩
    rw [foldl_set_get_mem k _ lbls i hi hm, if_pos hc]
  · have hc : ¬(i < v.length ∧ v.getD i 0 = 1) := by
      intro hcon
      exact hm (List.mem_filter.mpr ⟨List.mem_range.mpr hcon.1, by simpa using hcon.2⟩)
    rw [foldl_set_get_notmem k _ lbls i hm, if_neg hc]

lemma labelStep_length (info : List (String × List ℤ)) (init : List String) :
    (info.foldl (fun lbls kv => if containsTarget kv.1 then lbls
      else applyChannel lbls kv.1 kv.2) init).length = init.length := by
  induction info generalizing init with
  | nil => rfl
  | cons kv rest ih =>
    rw [List.foldl_cons, ih]
    by_cases hb : containsTarget kv.1
    · rw [if_pos hb]
    · rw [if_neg hb, applyChannel, foldl_set_length]

lemma trialLabelsB_foldl (nb : ℕ) (i : ℕ) (hi : i < nb)
    (info : List (String × List ℤ)) (init : List String) (d : String)
    (hlen : init.length = nb) (hv : ∀ kv ∈ info, kv.2.length = nb)
    (hd : init[i]? = some d) :
    (info.foldl (fun lbls kv => if containsTarget kv.1 then lbls
      else applyChannel lbls kv.1 kv.2) init)[i]? =
    some (((info.filter (fun kv => !containsTarget kv.1 &&
      (kv.2.getD i 0 == 1))).map Prod.fst).getLastD d) := by
  induction info generalizing init d with
  | nil => simpa using hd
  | cons kv rest ih =>
    have hvk : kv.2.length = nb := hv kv (List.mem_cons_self kv rest)
    have hvr : ∀ x ∈ rest, x.2.length = nb := fun x hx => hv x (List.mem_cons_of_mem kv hx)
    rw [List.foldl_cons, List.filter_cons]
    by_cases hb : containsTarget kv.1
    · rw [if_pos hb]
      have hpred : (!containsTarget kv.1 && (kv.2.getD i 0 == 1)) = false := by
        rw [hb]; rfl
      rw [hpred, if_neg (by simp)]
      exact ih init d hlen hvr hd
    · rw [if_neg hb]
      have hb2 : containsTarget kv.1 = false := by
        cases hcb : containsTarget kv.1
        · rfl
        · exact absurd hcb hb
      by_cases hq : kv.2.getD i 0 = 1
      · have hpred : (!containsTarget kv.1 && (kv.2.getD i 0 == 1)) = true := by
          rw [hb2, hq]
          rfl
        rw [hpred, if_pos rfl, List.map_cons, List.getLastD_cons]
        refine ih (applyChannel init kv.1 kv.2) kv.1 ?_ hvr ?_
        · rw [applyChannel, foldl_set_length, hlen]
        · rw [applyChannel_get init kv.1 kv.2 i (by omega),
            if_pos ⟨by omega, hq⟩]
      · have hpred : (!containsTarget kv.1 && (kv.2.getD i 0 == 1)) = false := by
          rw [hb2]
          cases hg : (kv.2.getD i 0 == 1) with
          | false => rfl
          | true => exact absurd (eq_of_beq hg) hq
        rw [hpred, if_neg (by simp)]
        refine ih (applyChannel init kv.1 kv.2) d ?_ hvr ?_
        · rw [applyChannel, foldl_set_length, hlen]
        · rw [applyChannel_get init kv.1 kv.2 i (by omega),
            if_neg (fun hcon => hq hcon.2)]
          exact hd

/-- C5: `_create_ds` labels every behavior trial with the name of the last
(in channel iteration order) non-`target` indicator channel that equals 1 at
that trial, defaulting to `"_null_"` when no such channel matches, and
unconditionally labels every passive trial `"passive"`. -/
theorem trial_labeling (nb npas : ℕ) (info : List (String × List ℤ))
    (hv : ∀ kv ∈ info, kv.2.length = nb) :
    (trialLabels nb npas info).length = nb + npas ∧
    (∀ i, i < nb → (trialLabels nb npas info).getD i "" =
      ((info.filter (fun kv => !containsTarget kv.1 &&
        (kv.2.getD i 0 == 1))).map Prod.fst).getLastD "_null_") ∧
    (∀ i, nb ≤ i → i < nb + npas → (trialLabels nb npas info).getD i "" = "passive") := by
  have hblen : (trialLabelsB nb info).length = nb := by
    rw [trialLabelsB, labelStep_length, List.length_replicate]
  refine ⟨?_, ?_, ?_⟩
  · rw [trialLabels, List.length_append, hblen, List.length_replicate]
  · intro i hi
    rw [trialLabels, List.getD_eq_getElem?_getD,
      List.getElem?_append_left (by rw [hblen]; exact hi), trialLabelsB,
      trialLabelsB_foldl nb i hi info (List.replicate nb "_null_") "_null_"
        (List.length_replicate nb _) hv
        (by rw [List.getElem?_replicate, if_pos hi])]
    rfl
  · intro i h1 h2
    rw [trialLabels, List.getD_eq_getElem?_getD,
      List.getElem?_append_right (by rw [hblen]; exact h1), hblen,
      List.getElem?_replicate, if_pos (by omega)]
    rfl

/-- Witness for C5: channels `hit`, `miss`, `target7k` on two behavior
trials and one passive trial; trial 0 gets `"hit"`, trial 1 gets `"miss"`
(the `target7k` channel is skipped), trial 2 gets `"passive"`. -/
theorem trial_labeling_witness :
    (∀ kv ∈ wInfo, kv.2.length = 2) ∧
    ((trialLabels 2 1 wInfo).length = 2 + 1 ∧
      (∀ i, i < 2 → (trialLabels 2 1 wInfo).getD i "" =
        ((wInfo.filter (fun kv => !containsTarget kv.1 &&
          (kv.2.getD i 0 == 1))).map Prod.fst).getLastD "_null_") ∧
      (∀ i, 2 ≤ i → i < 2 + 1 → (trialLabels 2 1 wInfo).getD i "" = "passive")) :=
  ⟨by decide, trial_labeling 2 1 wInfo (by decide)⟩

lemma pSum_succ {α : Type} (l : List (String × List α)) (j : ℕ) (h : j < l.length) :
    pSum l (j + 1) = pSum l j + (l.get ⟨j, h⟩).2.length := by
  rw [pSum, pSum, List.take_succ, List.map_append, List.sum_append,
    List.getElem?_eq_getElem h]
  simp [List.get_eq_getElem]

lemma pSum_le_succ {α : Type} (l : List (String × List α)) (j : ℕ) :
    pSum l j ≤ pSum l (j + 1) := by
  by_cases h : j < l.length
  · rw [pSum_succ l j h]
    omega
  · rw [pSum, pSum, List.take_of_length_le (by omega), List.take_of_length_le (by omega)]

lemma pSum_mono {α : Type} (l : List (String × List α)) : Monotone (pSum l) :=
  monotone_nat_of_le_succ (pSum_le_succ l)

lemma buildRanges_sum (l : List (String × List ℕ)) (off : ℕ) :
    ((buildRanges off l).map (fun e => e.2.2 - e.2.1)).sum = totalLen l := by
  induction l generalizing off with
  | nil => rfl
  | cons kv rest ih =>
    obtain ⟨k, v⟩ := kv
    simp only [buildRanges, List.map_cons, List.sum_cons, ih, totalLen,
      List.map_cons, List.sum_cons]
    omega

lemma exists_mem_contains (l : List (String × List ℕ)) (off : ℕ) (i : ℕ)
    (h0 : off ≤ i) (h1 : i < off + totalLen l) :
    ∃ e ∈ buildRanges off l, e.2.1 ≤ i ∧ i < e.2.2 := by
  induction l generalizing off with
  | nil =>
    exfalso
    simp only [totalLen, List.map_nil, List.sum_nil] at h1
    omega
  | cons kv rest ih =>
    obtain ⟨k, v⟩ := kv
    simp only [totalLen, List.map_cons, List.sum_cons] at h1
    by_cases hc : i < off + v.length
    · exact ⟨(k, off, off + v.length), List.mem_cons_self _ _, h0, hc⟩
    · obtain ⟨e, he, hb⟩ := ih (off + v.length) (by omega)
        (by simp only [totalLen]; omega)
      exact ⟨e, List.mem_cons_of_mem _ he, hb⟩

lemma buildRanges_getElem (l : List (String × List ℕ)) (off : ℕ) (j : ℕ)
    (h : j < l.length) (h2 : j < (buildRanges off l).length) :
    (buildRanges off l)[j] =
      ((l[j]).1, off + pSum l j, off + pSum l j + (l[j]).2.length) := by
  have hg := buildRanges_get l off j h
  simpa [List.get_eq_getElem] using hg

lemma splitAll_ent_lens {D L : Type} [Inhabited D] [Inhabited L]
    (choice : ℕ → List ℕ) (licksAll : List (String × List L))
    (dffAll : List (String × List D)) (j off : ℕ) :
    ∀ e ∈ splitAll choice licksAll dffAll j off,
      e.lickT.length = e.trainGlob.length ∧ e.lickV.length = e.validGlob.length := by
  induction dffAll generalizing j off with
  | nil =>
    intro e he
    simp [splitAll] at he
  | cons kv rest ih =>
    obtain ⟨k, v⟩ := kv
    intro e he
    rcases List.mem_cons.mp he with rfl | he2
    · constructor <;> simp [splitOne, sliceCols]
    · exact ih (j + 1) (off + v.length) e he2

lemma bundle_totalLen {D L : Type} [Inhabited D] [Inhabited L]
    (dffAll : List (String × List D)) (licksAll : List (String × List L))
    (choice : ℕ → List ℕ) (B : Bundle D L)
    (hB : B = (trainValidSplit dffAll licksAll choice).1 ∨
          B = (trainValidSplit dffAll licksAll choice).2) :
    totalLen B.indxs = datasetLen B.licks ∧ B.ranges = buildRanges 0 B.indxs := by
  rcases hB with rfl | rfl
  · refine ⟨?_, rfl⟩
    rw [totalLen, datasetLen]
    show ((List.map _ (splitAll choice licksAll dffAll 0 0)).map _).sum =
      ((List.map _ (splitAll choice licksAll dffAll 0 0)).map _).sum
    rw [List.map_map, List.map_map]
    refine congrArg List.sum (List.map_congr_left ?_)
    intro e he
    simp only [Function.comp_apply]
    exact ((splitAll_ent_lens choice licksAll dffAll 0 0 e he).1).symm
  · refine ⟨?_, rfl⟩
    rw [totalLen, datasetLen]
    show ((List.map _ (splitAll choice licksAll dffAll 0 0)).map _).sum =
      ((List.map _ (splitAll choice licksAll dffAll 0 0)).map _).sum
    rw [List.map_map, List.map_map]
    refine congrArg List.sum (List.map_congr_left ?_)
    intro e he
    simp only [Function.comp_apply]
    exact ((splitAll_ent_lens choice licksAll dffAll 0 0 e he).2).symm

lemma ranges_partition_core (fam : List (String × List ℕ)) :
    (∀ h0 : 0 < (buildRanges 0 fam).length, ((buildRanges 0 fam)[0]).2.1 = 0) ∧
    (∀ j, ∀ h1 : j + 1 < (buildRanges 0 fam).length,
      ((buildRanges 0 fam)[j]).2.2 = ((buildRanges 0 fam)[j + 1]).2.1) ∧
    (∀ j j', ∀ hj : j < (buildRanges 0 fam).length,
      ∀ hj2 : j' < (buildRanges 0 fam).length, j < j' →
      ((buildRanges 0 fam)[j]).2.2 ≤ ((buildRanges 0 fam)[j']).2.1) ∧
    (∀ i : ℕ, (∃ e ∈ buildRanges 0 fam, e.2.1 ≤ i ∧ i < e.2.2) ↔ i < totalLen fam) ∧
    ((buildRanges 0 fam).map (fun e => e.2.2 - e.2.1)).sum = totalLen fam := by
  have hlen : (buildRanges 0 fam).length = fam.length := buildRanges_length fam 0
  refine ⟨?_, ?_, ?_, ?_, buildRanges_sum fam 0⟩
  · intro h0
    rw [buildRanges_getElem fam 0 0 (by omega) h0]
    simp [pSum]
  · intro j h1
    have hj : j < fam.length := by omega
    have hj1 : j + 1 < fam.length := by omega
    rw [buildRanges_getElem fam 0 j hj (by omega),
      buildRanges_getElem fam 0 (j + 1) hj1 (by omega)]
    have := pSum_succ fam j hj
    simp only [List.get_eq_getElem] at this
    simp only []
    omega
  · intro j j' hj hj2 hlt
    have hjf : j < fam.length := by omega
    have hjf2 : j' < fam.length := by omega
    rw [buildRanges_getElem fam 0 j hjf (by omega),
      buildRanges_getElem fam 0 j' hjf2 (by omega)]
    have h1 := pSum_succ fam j hjf
    simp only [List.get_eq_getElem] at h1
    have h2 := pSum_mono fam (show j + 1 ≤ j' by omega)
    simp only []
    omega
  · intro i
    constructor
    · rintro ⟨e, he, hb1, hb2⟩
      have := buildRanges_bounds fam 0 e he
      omega
    · intro hi
      exact exists_mem_contains fam 0 i (by omega) (by omega)

/-- C2: for every family of per-entity index lists produced by
`_train_valid_split`, the range map built for each partition assigns each
entity a half-open interval such that the intervals are contiguous and
non-overlapping in construction order, their union spans `[0, total_count)`
where `total_count` is the sum of that partition's subset sizes, and the sum
of interval lengths equals the total partition sample count. -/
theorem range_map_partition {D L : Type} [Inhabited D] [Inhabited L]
    (dffAll : List (String × List D)) (licksAll : List (String × List L))
    (choice : ℕ → List ℕ) (B : Bundle D L)
    (hB : B = (trainValidSplit dffAll licksAll choice).1 ∨
          B = (trainValidSplit dffAll licksAll choice).2) :
    B.ranges = buildRanges 0 B.indxs ∧
    (∀ h0 : 0 < B.ranges.length, (B.ranges[0]).2.1 = 0) ∧
    (∀ j, ∀ h1 : j + 1 < B.ranges.length,
      (B.ranges[j]).2.2 = (B.ranges[j + 1]).2.1) ∧
    (∀ j j', ∀ hj : j < B.ranges.length, ∀ hj2 : j' < B.ranges.length, j < j' →
      (B.ranges[j]).2.2 ≤ (B.ranges[j']).2.1) ∧
    (∀ i : ℕ, (∃ e ∈ B.ranges, e.2.1 ≤ i ∧ i < e.2.2) ↔ i < totalLen B.indxs) ∧
    ((B.ranges.map (fun e => e.2.2 - e.2.1)).sum = totalLen B.indxs) ∧
    totalLen B.indxs = datasetLen B.licks := by
  obtain ⟨hTD, hRI⟩ := bundle_totalLen dffAll licksAll choice B hB
  rw [hRI]
  obtain ⟨c1, c2, c3, c4, c5⟩ := ranges_partition_core B.indxs
  exact ⟨rfl, c1, c2, c3, c4, c5, hTD⟩

/-- Witness for C2: the train partition of the concrete two-entity split. -/
theorem range_map_partition_witness :
    ((trainValidSplit wDff wLicks wChoice).1).ranges =
      buildRanges 0 ((trainValidSplit wDff wLicks wChoice).1).indxs ∧
    (∀ h0 : 0 < ((trainValidSplit wDff wLicks wChoice).1).ranges.length,
      ((((trainValidSplit wDff wLicks wChoice).1).ranges)[0]).2.1 = 0) ∧
    (∀ j, ∀ h1 : j + 1 < ((trainValidSplit wDff wLicks wChoice).1).ranges.length,
      ((((trainValidSplit wDff wLicks wChoice).1).ranges)[j]).2.2 =
        ((((trainValidSplit wDff wLicks wChoice).1).ranges)[j + 1]).2.1) ∧
    (∀ j j', ∀ hj : j < ((trainValidSplit wDff wLicks wChoice).1).ranges.length,
      ∀ hj2 : j' < ((trainValidSplit wDff wLicks wChoice).1).ranges.length, j < j' →
      ((((trainValidSplit wDff wLicks wChoice).1).ranges)[j]).2.2 ≤
        ((((trainValidSplit wDff wLicks wChoice).1).ranges)[j']).2.1) ∧
    (∀ i : ℕ, (∃ e ∈ ((trainValidSplit wDff wLicks wChoice).1).ranges,
      e.2.1 ≤ i ∧ i < e.2.2) ↔
      i < totalLen ((trainValidSplit wDff wLicks wChoice).1).indxs) ∧
    ((((trainValidSplit wDff wLicks wChoice).1).ranges.map
      (fun e => e.2.2 - e.2.1)).sum =
      totalLen ((trainValidSplit wDff wLicks wChoice).1).indxs) ∧
    totalLen ((trainValidSplit wDff wLicks wChoice).1).indxs =
      datasetLen ((trainValidSplit wDff wLicks wChoice).1).licks :=
  range_map_partition wDff wLicks wChoice ((trainValidSplit wDff wLicks wChoice).1)
    (Or.inl rfl)

lemma resolve_unique_core {D L : Type} [Inhabited D] [Inhabited L]
    (ents : List (EntSplit D L)) (glob : EntSplit D L → List ℕ)
    (lick : EntSplit D L → List L)
    (hpt : ∀ e ∈ ents, (lick e).length = (glob e).length) (i : ℤ) (h0 : 0 ≤ i)
    (h1 : i < (datasetLen (ents.map (fun e => (e.ename, lick e))) : ℤ)) :
    ∃ j, ∃ hr : j < (buildRanges 0 (ents.map (fun e => (e.ename, glob e)))).length,
      ∃ hl : j < (ents.map (fun e => (e.ename, lick e))).length,
      generateOne (buildRanges 0 (ents.map (fun e => (e.ename, glob e)))) i =
        [(((buildRanges 0 (ents.map (fun e => (e.ename, glob e))))[j]).1,
          i - ((((buildRanges 0 (ents.map (fun e => (e.ename, glob e))))[j]).2.1 : ℤ)))] ∧
      ((((buildRanges 0 (ents.map (fun e => (e.ename, glob e))))[j]).2.1 : ℤ) ≤ i ∧
      i < ((((buildRanges 0 (ents.map (fun e => (e.ename, glob e))))[j]).2.2 : ℤ))) ∧
      (((ents.map (fun e => (e.ename, lick e)))[j]).1 =
        (((buildRanges 0 (ents.map (fun e => (e.ename, glob e))))[j]).1)) ∧
      0 ≤ i - ((((buildRanges 0 (ents.map (fun e => (e.ename, glob e))))[j]).2.1 : ℤ)) ∧
      i - ((((buildRanges 0 (ents.map (fun e => (e.ename, glob e))))[j]).2.1 : ℤ)) <
        ((((ents.map (fun e => (e.ename, lick e)))[j]).2.length : ℤ)) ∧
      ∀ e ∈ buildRanges 0 (ents.map (fun e => (e.ename, glob e))),
        (e.2.1 : ℤ) ≤ i → i < (e.2.2 : ℤ) →
        (e.1, i - (e.2.1 : ℤ)) =
          (((buildRanges 0 (ents.map (fun e => (e.ename, glob e))))[j]).1,
            i - ((((buildRanges 0 (ents.map (fun e => (e.ename, glob e))))[j]).2.1 : ℤ))) := by
  set fam := ents.map (fun e => (e.ename, glob e)) with hfam
  set LK := ents.map (fun e => (e.ename, lick e)) with hLK
  have hfl : fam.length = ents.length := List.length_map _ _
  have hll : LK.length = ents.length := List.length_map _ _
  have hdl : datasetLen LK = totalLen fam := by
    rw [datasetLen, totalLen, hfam, hLK, List.map_map, List.map_map]
    refine congrArg List.sum (List.map_congr_left ?_)
    intro e he
    simp only [Function.comp_apply]
    exact hpt e he
  rw [hdl] at h1
  obtain ⟨j, hf, hres, hlo, hhi⟩ := generateOne_singleton fam 0 i (by simpa using h0)
    (by push_cast; omega)
  simp only [List.get_eq_getElem] at hres hhi
  have hr : j < (buildRanges 0 fam).length := by
    rw [buildRanges_length]
    exact hf
  have hl : j < LK.length := by omega
  have hre : (buildRanges 0 fam)[j] =
      ((fam[j]).1, 0 + pSum fam j, 0 + pSum fam j + (fam[j]).2.length) :=
    buildRanges_getElem fam 0 j hf hr
  have hr1 : ((buildRanges 0 fam)[j]).1 = (fam[j]).1 := by rw [hre]
  have hr2 : ((buildRanges 0 fam)[j]).2.1 = 0 + pSum fam j := by rw [hre]
  have hr3 : ((buildRanges 0 fam)[j]).2.2 = 0 + pSum fam j + (fam[j]).2.length := by
    rw [hre]
  have hje : j < ents.length := by omega
  have hname : (LK[j]).1 = (fam[j]).1 := by
    simp only [hLK, hfam, List.getElem_map]
  have hsz : (LK[j]).2.length = (fam[j]).2.length := by
    simp only [hLK, hfam, List.getElem_map]
    exact hpt (ents[j]) (List.getElem_mem hje)
  have hsing : generateOne (buildRanges 0 fam) i =
      [(((buildRanges 0 fam)[j]).1, i - ((((buildRanges 0 fam)[j]).2.1 : ℕ) : ℤ))] := by
    rw [hr1, hr2]
    exact hres
  refine ⟨j, hr, hl, hsing, ⟨?_, ?_⟩, ?_, ?_, ?_, ?_⟩
  · rw [hr2]
    exact hlo
  · rw [hr3]
    exact hhi
  · rw [hname, hr1]
  · rw [hr2]
    omega
  · rw [hr2, hsz]
    omega
  · intro e he hc1 hc2
    have hmem := mem_generateOne_of_mem (buildRanges 0 fam) i e he ⟨hc1, hc2⟩
    rw [hsing] at hmem
    exact List.mem_singleton.mp hmem

/-- C1: for every A1Dataset whose range map is built by `_train_valid_split`
(either partition), and for every valid scalar index `i` in `[0, length())`
where `length()` is the sum of the lick tensors' trial-axis sizes, the
resolution of `i` yields exactly one (entity, local index) pair, the entity
is the unique one whose half-open range-map interval contains `i`, and the
local index is nonnegative and strictly less than that entity's subset size
(the trial-axis length of the lick tensor stored at the same position under
the same entity name). -/
theorem resolve_unique_in_split {D L : Type} [Inhabited D] [Inhabited L]
    (dffAll : List (String × List D)) (licksAll : List (String × List L))
    (choice : ℕ → List ℕ) (B : Bundle D L)
    (hB : B = (trainValidSplit dffAll licksAll choice).1 ∨
          B = (trainValidSplit dffAll licksAll choice).2)
    (i : ℤ) (h0 : 0 ≤ i) (h1 : i < (datasetLen B.licks : ℤ)) :
    ∃ j, ∃ hr : j < B.ranges.length, ∃ hl : j < B.licks.length,
      generateOne B.ranges i =
        [((B.ranges[j]).1, i - (((B.ranges[j]).2.1 : ℕ) : ℤ))] ∧
      (((B.ranges[j]).2.1 : ℤ) ≤ i ∧ i < ((B.ranges[j]).2.2 : ℤ)) ∧
      (B.licks[j]).1 = (B.ranges[j]).1 ∧
      0 ≤ i - ((B.ranges[j]).2.1 : ℤ) ∧
      i - ((B.ranges[j]).2.1 : ℤ) < ((B.licks[j]).2.length : ℤ) ∧
      ∀ e ∈ B.ranges, (e.2.1 : ℤ) ≤ i → i < (e.2.2 : ℤ) →
        (e.1, i - (e.2.1 : ℤ)) =
          ((B.ranges[j]).1, i - (((B.ranges[j]).2.1 : ℕ) : ℤ)) := by
  rcases hB with rfl | rfl
  · exact resolve_unique_core (splitAll choice licksAll dffAll 0 0)
      (fun e => e.trainGlob) (fun e => e.lickT)
      (fun e he => (splitAll_ent_lens choice licksAll dffAll 0 0 e he).1) i h0 h1
  · exact resolve_unique_core (splitAll choice licksAll dffAll 0 0)
      (fun e => e.validGlob) (fun e => e.lickV)
      (fun e he => (splitAll_ent_lens choice licksAll dffAll 0 0 e he).2) i h0 h1

/-- Witness for C1: index 2 of the concrete train partition (lengths 2 and
1) resolves to the single pair (entity B, local index 0). -/
theorem resolve_unique_in_split_witness :
    (0 : ℤ) ≤ 2 ∧
    (2 : ℤ) < (datasetLen ((trainValidSplit wDff wLicks wChoice).1).licks : ℤ) ∧
    (∃ j, ∃ hr : j < ((trainValidSplit wDff wLicks wChoice).1).ranges.length,
      ∃ hl : j < ((trainValidSplit wDff wLicks wChoice).1).licks.length,
      generateOne ((trainValidSplit wDff wLicks wChoice).1).ranges 2 =
        [(((((trainValidSplit wDff wLicks wChoice).1).ranges)[j]).1,
          2 - ((((((trainValidSplit wDff wLicks wChoice).1).ranges)[j]).2.1 : ℕ) : ℤ))] ∧
      ((((((trainValidSplit wDff wLicks wChoice).1).ranges)[j]).2.1 : ℤ) ≤ 2 ∧
        (2 : ℤ) < (((((trainValidSplit wDff wLicks wChoice).1).ranges)[j]).2.2 : ℤ)) ∧
      ((((trainValidSplit wDff wLicks wChoice).1).licks)[j]).1 =
        ((((trainValidSplit wDff wLicks wChoice).1).ranges)[j]).1 ∧
      (0 : ℤ) ≤ 2 - (((((trainValidSplit wDff wLicks wChoice).1).ranges)[j]).2.1 : ℤ) ∧
      (2 : ℤ) - (((((trainValidSplit wDff wLicks wChoice).1).ranges)[j]).2.1 : ℤ) <
        (((((trainValidSplit wDff wLicks wChoice).1).licks)[j]).2.length : ℤ) ∧
      ∀ e ∈ ((trainValidSplit wDff wLicks wChoice).1).ranges,
        (e.2.1 : ℤ) ≤ 2 → (2 : ℤ) < (e.2.2 : ℤ) →
        (e.1, 2 - (e.2.1 : ℤ)) =
          (((((trainValidSplit wDff wLicks wChoice).1).ranges)[j]).1,
            2 - ((((((trainValidSplit wDff wLicks wChoice).1).ranges)[j]).2.1 : ℕ) : ℤ))) :=
  ⟨by decide, by decide,
   resolve_unique_in_split wDff wLicks wChoice
     ((trainValidSplit wDff wLicks wChoice).1) (Or.inl rfl) 2 (by decide) (by decide)⟩

lemma generateOne_eq_nil_of_none (ranges : List (String × ℕ × ℕ)) (i : ℤ)
    (h : ∀ e ∈ ranges, ¬((e.2.1 : ℤ) ≤ i ∧ i < (e.2.2 : ℤ))) :
    generateOne ranges i = [] := by
  rw [generateOne, List.filterMap_eq_nil_iff]
  intro e he
  rw [if_neg (h e he)]

/-- C10: for a dataset built by `_train_valid_split`, a scalar integer index
that lies outside every range-map interval — in particular any
`i ≥ length()` and any negative `i` — resolves to zero (entity, local index)
pairs without any bounds or invalid-index error (`_generate_idxs` returns
`ok` with an empty resolution), so the `__getitem__` loop proceeds and
builds empty per-field lists instead of reporting an out-of-range condition
at resolution time. -/
theorem out_of_range_resolves_empty {D L : Type} [Inhabited D] [Inhabited L]
    (dffAll : List (String × List D)) (licksAll : List (String × List L))
    (choice : ℕ → List ℕ) (B : Bundle D L)
    (hB : B = (trainValidSplit dffAll licksAll choice).1 ∨
          B = (trainValidSplit dffAll licksAll choice).2)
    (i : ℤ) (len : ℕ) (dfL : String → ℕ → String) (dfF : String → ℕ → ℤ)
    (dff2 : List (String × List D)) (licks2 : List (String × List L))
    (n2i : String → ℕ) (l2i : String → ℕ) (f2i : ℤ → ℕ) :
    ((i < 0 ∨ (datasetLen B.licks : ℤ) ≤ i) →
      ∀ e ∈ B.ranges, ¬((e.2.1 : ℤ) ≤ i ∧ i < (e.2.2 : ℤ))) ∧
    ((∀ e ∈ B.ranges, ¬((e.2.1 : ℤ) ≤ i ∧ i < (e.2.2 : ℤ))) →
      generateOne B.ranges i = [] ∧
      generateIdxs len B.ranges (.intIdx i) = .ok [] ∧
      getItemLists B.ranges dfL dfF dff2 licks2 n2i l2i f2i i =
        ([], [], [], [], [])) := by
  constructor
  · intro hout e he
    obtain ⟨hTD, hRI⟩ := bundle_totalLen dffAll licksAll choice B hB
    rw [hRI] at he
    have hb := buildRanges_bounds B.indxs 0 e he
    intro hcon
    rcases hout with hneg | hge
    · omega
    · omega
  · intro hnone
    have hnil := generateOne_eq_nil_of_none B.ranges i hnone
    refine ⟨hnil, ?_, ?_⟩
    · simp [generateIdxs, resolveAll, hnil]
    · simp [getItemLists, hnil]

/-- Witness for C10: index 5 lies beyond the concrete train partition's
length 3; it is outside every interval and resolves to empty lists without
an error. -/
theorem out_of_range_resolves_empty_witness :
    (((5 : ℤ) < 0 ∨
        (datasetLen ((trainValidSplit wDff wLicks wChoice).1).licks : ℤ) ≤ 5) →
      ∀ e ∈ ((trainValidSplit wDff wLicks wChoice).1).ranges,
        ¬((e.2.1 : ℤ) ≤ 5 ∧ (5 : ℤ) < (e.2.2 : ℤ))) ∧
    ((∀ e ∈ ((trainValidSplit wDff wLicks wChoice).1).ranges,
        ¬((e.2.1 : ℤ) ≤ 5 ∧ (5 : ℤ) < (e.2.2 : ℤ))) →
      generateOne ((trainValidSplit wDff wLicks wChoice).1).ranges 5 = [] ∧
      generateIdxs 3 ((trainValidSplit wDff wLicks wChoice).1).ranges (.intIdx 5) =
        .ok [] ∧
      getItemLists ((trainValidSplit wDff wLicks wChoice).1).ranges
        (fun _ _ => "") (fun _ _ => 0) wDff wLicks
        (fun _ => 0) (fun _ => 0) (fun _ => 0) 5 = ([], [], [], [], [])) :=
  out_of_range_resolves_empty wDff wLicks wChoice
    ((trainValidSplit wDff wLicks wChoice).1) (Or.inl rfl) 5 3
    (fun _ _ => "") (fun _ _ => 0) wDff wLicks (fun _ => 0) (fun _ => 0) (fun _ => 0)

lemma contains_nat (l : List ℕ) (i : ℕ) : l.contains i = true ↔ i ∈ l := by
  simp

lemma contains_false_nat (l : List ℕ) (i : ℕ) : l.contains i = false ↔ i ∉ l := by
  constructor
  · intro h hm
    rw [(contains_nat l i).mpr hm] at h
    simp at h
  · intro hm
    cases h : l.contains i
    · rfl
    · exact absurd ((contains_nat l i).mp h) hm

lemma length_filter_not_contains (n : ℕ) (q : ℕ → Bool) :
    ((List.range n).filter (fun i => !(((List.range n).filter q).contains i))).length =
      n - ((List.range n).filter q).length := by
  have hc : ∀ i ∈ List.range n,
      (!(((List.range n).filter q).contains i)) = !(q i) := by
    intro i hi
    congr 1
    cases hq : q i
    · exact (contains_false_nat _ i).mpr (by simp [List.mem_filter, hq])
    · exact (contains_nat _ i).mpr (List.mem_filter.mpr ⟨hi, hq⟩)
  rw [List.filter_congr hc]
  have hp := length_filter_partition (List.range n) q
  have hr : (List.range n).length = n := List.length_range n
  omega

lemma qVar_nonneg (x : List ℚ) : 0 ≤ qVar x := by
  rw [qVar]
  apply div_nonneg
  · apply List.sum_nonneg
    intro v hv
    obtain ⟨w, _, rfl⟩ := List.mem_map.mp hv
    positivity
  · positivity

lemma sq_compare (dq vq : ℚ) (nb : ℕ) (hv : 0 ≤ vq) :
    (0 < dq ∧ (nb : ℚ) ^ 2 * vq < dq ^ 2) ↔
      ((nb : ℝ) * Real.sqrt (vq : ℝ) < (dq : ℝ)) := by
  have hv2 : (0 : ℝ) ≤ (vq : ℝ) := by exact_mod_cast hv
  have hs := Real.sq_sqrt hv2
  have hsn := Real.sqrt_nonneg (vq : ℝ)
  constructor
  · rintro ⟨h1, h2⟩
    have h1r : (0 : ℝ) < (dq : ℝ) := by exact_mod_cast h1
    have h2r : ((nb : ℝ)) ^ 2 * (vq : ℝ) < (dq : ℝ) ^ 2 := by exact_mod_cast h2
    by_contra hcon
    push_neg at hcon
    have hsq : (dq : ℝ) ^ 2 ≤ ((nb : ℝ) * Real.sqrt (vq : ℝ)) ^ 2 :=
      pow_le_pow_left₀ h1r.le hcon 2
    have hexp : ((nb : ℝ) * Real.sqrt (vq : ℝ)) ^ 2 = (nb : ℝ) ^ 2 * (vq : ℝ) := by
      rw [mul_pow, hs]
    rw [hexp] at hsq
    linarith
  · intro h
    have hnn : (0 : ℝ) ≤ (nb : ℝ) * Real.sqrt (vq : ℝ) :=
      mul_nonneg (Nat.cast_nonneg nb) hsn
    have h1r : (0 : ℝ) < (dq : ℝ) := lt_of_le_of_lt hnn h
    have hsq : ((nb : ℝ) * Real.sqrt (vq : ℝ)) ^ 2 < (dq : ℝ) ^ 2 :=
      pow_lt_pow_left₀ h hnn (by omega)
    have hexp : ((nb : ℝ) * Real.sqrt (vq : ℝ)) ^ 2 = (nb : ℝ) ^ 2 * (vq : ℝ) := by
      rw [mul_pow, hs]
    rw [hexp] at hsq
    constructor
    · exact_mod_cast h1r
    · exact_mod_cast hsq

lemma mem_candidateIdxs (bright : List Bool) (norm : List (Option ℚ)) (c : ℕ) :
    c ∈ candidateIdxs bright norm ↔
      c < norm.length ∧ bright.getD c false = true ∧ (norm.getD c none).isSome = true := by
  rw [candidateIdxs, List.mem_filter, List.mem_range]
  simp [Bool.and_eq_true, and_assoc]

lemma mem_outlierPos (x : List ℚ) (nb : ℕ) (i : ℕ) :
    i ∈ outlierPos x nb ↔
      i < x.length ∧ 0 < x.getD i 0 - qMean x ∧
        (nb : ℚ) ^ 2 * qVar x < (x.getD i 0 - qMean x) ^ 2 := by
  rw [outlierPos, List.mem_filter, List.mem_range]
  simp [Bool.and_eq_true, decide_eq_true_iff, and_assoc]

lemma candidateIdxs_nodup (bright : List Bool) (norm : List (Option ℚ)) :
    (candidateIdxs bright norm).Nodup :=
  (List.filter_sublist _).nodup (List.nodup_range _)

/-- C6: `get_good_cells` — the candidate cells are exactly the bright cells
with non-NaN norm; a candidate is an outlier exactly when its norm exceeds
`mean(candidate norms) + nb_std * std(candidate norms)` (stated over `ℝ`
with `std = √var`); the good cells are the candidates minus the outliers, so
`|good| = |candidates| - |outliers|`, the good set is disjoint from the
outlier cells, and membership in the good set is exactly candidacy minus
outlierhood.  The function is pure, hence deterministic for fixed input. -/
theorem good_cells_spec (bright : List Bool) (norm : List (Option ℚ)) (nb : ℕ) :
    (∀ c, c ∈ (getGoodCells bright norm nb).2.2 ↔
      c < norm.length ∧ bright.getD c false = true ∧
        (norm.getD c none).isSome = true) ∧
    (∀ i, i ∈ (getGoodCells bright norm nb).2.1 ↔
      i < (candNorms bright norm).length ∧
      ((qMean (candNorms bright norm) : ℝ) +
        (nb : ℝ) * Real.sqrt ((qVar (candNorms bright norm) : ℚ) : ℝ) <
        (((candNorms bright norm).getD i 0 : ℚ) : ℝ))) ∧
    (getGoodCells bright norm nb).1.length =
      (getGoodCells bright norm nb).2.2.length -
        (getGoodCells bright norm nb).2.1.length ∧
    (∀ c ∈ (getGoodCells bright norm nb).1,
      c ∉ (getGoodCells bright norm nb).2.1.map
        (fun i => (getGoodCells bright norm nb).2.2.getD i 0)) ∧
    (∀ c, c ∈ (getGoodCells bright norm nb).1 ↔
      (c ∈ (getGoodCells bright norm nb).2.2 ∧
        c ∉ (getGoodCells bright norm nb).2.1.map
          (fun i => (getGoodCells bright norm nb).2.2.getD i 0))) := by
  have hout : (getGoodCells bright norm nb).2.1 =
      outlierPos (candNorms bright norm) nb := rfl
  have hcand : (getGoodCells bright norm nb).2.2 = candidateIdxs bright norm := rfl
  have hgood : (getGoodCells bright norm nb).1 =
      npDelete (candidateIdxs bright norm) 0
        (outlierPos (candNorms bright norm) nb) := rfl
  have hxlen : (candNorms bright norm).length = (candidateIdxs bright norm).length :=
    List.length_map _ _
  have hnd : (candidateIdxs bright norm).Nodup := candidateIdxs_nodup bright norm
  have houtmem : ∀ i, i ∈ outlierPos (candNorms bright norm) nb ↔
      i < (candNorms bright norm).length ∧
      ((qMean (candNorms bright norm) : ℝ) +
        (nb : ℝ) * Real.sqrt ((qVar (candNorms bright norm) : ℚ) : ℝ) <
        (((candNorms bright norm).getD i 0 : ℚ) : ℝ)) := by
    intro i
    rw [mem_outlierPos]
    constructor
    · rintro ⟨hi, h1, h2⟩
      have := (sq_compare _ _ nb (qVar_nonneg (candNorms bright norm))).mp ⟨h1, h2⟩
      push_cast at this ⊢
      constructor
      · exact hi
      · linarith
    · rintro ⟨hi, hgt⟩
      refine ⟨hi, ?_⟩
      apply (sq_compare _ _ nb (qVar_nonneg (candNorms bright norm))).mpr
      push_cast
      linarith
  have hgood_mem : ∀ c, c ∈ (getGoodCells bright norm nb).1 ↔
      ∃ i, i < (candidateIdxs bright norm).length ∧
        i ∉ outlierPos (candNorms bright norm) nb ∧
        (candidateIdxs bright norm).getD i 0 = c := by
    intro c
    rw [hgood, npDelete, List.mem_map]
    constructor
    · rintro ⟨i, hi, rfl⟩
      have h1 := List.mem_filter.mp hi
      exact ⟨i, List.mem_range.mp h1.1, (contains_false_nat _ _).mp (by simpa using h1.2),
        rfl⟩
    · rintro ⟨i, hi, hni, rfl⟩
      exact ⟨i, List.mem_filter.mpr ⟨List.mem_range.mpr hi,
        by simpa using (contains_false_nat _ _).mpr hni⟩, rfl⟩
  refine ⟨?_, ?_, ?_, ?_, ?_⟩
  · intro c
    rw [hcand]
    exact mem_candidateIdxs bright norm c
  · intro i
    rw [hout]
    exact houtmem i
  · rw [hgood, hout, hcand, npDelete]
    rw [List.length_map]
    have hq : outlierPos (candNorms bright norm) nb =
        (List.range (candidateIdxs bright norm).length).filter
          (fun i => decide (0 < (candNorms bright norm).getD i 0 -
              qMean (candNorms bright norm)) &&
            decide ((nb : ℚ) ^ 2 * qVar (candNorms bright norm) <
              ((candNorms bright norm).getD i 0 - qMean (candNorms bright norm)) ^ 2)) := by
      rw [outlierPos, hxlen]
    rw [hq, length_filter_not_contains]
  · intro c hc hmap
    obtain ⟨i, hi, hni, hci⟩ := (hgood_mem c).mp hc
    rw [hout, hcand] at hmap
    obtain ⟨jj, hjj, hcj⟩ := List.mem_map.mp hmap
    have hjlt : jj < (candidateIdxs bright norm).length := by
      have := (mem_outlierPos _ nb jj).mp hjj
      omega
    have hgi : (candidateIdxs bright norm).getD i 0 = (candidateIdxs bright norm)[i] :=
      List.getD_eq_getElem _ _ hi
    have hgj : (candidateIdxs bright norm).getD jj 0 = (candidateIdxs bright norm)[jj] :=
      List.getD_eq_getElem _ _ hjlt
    have heq : (candidateIdxs bright norm)[i] = (candidateIdxs bright norm)[jj] := by
      rw [← hgi, ← hgj, hci, hcj]
    have hij : i = jj := (hnd.getElem_inj_iff).mp heq
    exact hni (hij ▸ hjj)
  · intro c
    constructor
    · intro hc
      refine ⟨?_, ?_⟩
      · obtain ⟨i, hi, _, hci⟩ := (hgood_mem c).mp hc
        rw [hcand, ← hci, List.getD_eq_getElem _ _ hi]
        exact List.getElem_mem hi
      · intro hmap
        obtain ⟨i, hi, hni, hci⟩ := (hgood_mem c).mp hc
        rw [hout, hcand] at hmap
        obtain ⟨jj, hjj, hcj⟩ := List.mem_map.mp hmap
        have hjlt : jj < (candidateIdxs bright norm).length := by
          have := (mem_outlierPos _ nb jj).mp hjj
          omega
        have hgi : (candidateIdxs bright norm).getD i 0 =
            (candidateIdxs bright norm)[i] := List.getD_eq_getElem _ _ hi
        have hgj : (candidateIdxs bright norm).getD jj 0 =
            (candidateIdxs bright norm)[jj] := List.getD_eq_getElem _ _ hjlt
        have heq : (candidateIdxs bright norm)[i] = (candidateIdxs bright norm)[jj] := by
          rw [← hgi, ← hgj, hci, hcj]
        have hij : i = jj := (hnd.getElem_inj_iff).mp heq
        exact hni (hij ▸ hjj)
    · rintro ⟨hmem, hnmap⟩
      rw [hcand] at hmem
      obtain ⟨i, hi, hci⟩ := List.mem_iff_getElem.mp hmem
      refine (hgood_mem c).mpr ⟨i, hi, ?_, by rw [List.getD_eq_getElem _ _ hi]; exact hci⟩
      intro hio
      apply hnmap
      rw [hout, hcand]
      exact List.mem_map.mpr ⟨i, hio, by rw [List.getD_eq_getElem _ _ hi]; exact hci⟩

/-- Witness for C6: the specification instantiated at a one-cell recording
with a bright, non-NaN cell. -/
theorem good_cells_spec_witness :
    (∀ c, c ∈ (getGoodCells [true] [some (1 : ℚ)] 1).2.2 ↔
      c < ([some (1 : ℚ)] : List (Option ℚ)).length ∧
        ([true] : List Bool).getD c false = true ∧
        (([some (1 : ℚ)] : List (Option ℚ)).getD c none).isSome = true) ∧
    (∀ i, i ∈ (getGoodCells [true] [some (1 : ℚ)] 1).2.1 ↔
      i < (candNorms [true] [some (1 : ℚ)]).length ∧
      ((qMean (candNorms [true] [some (1 : ℚ)]) : ℝ) +
        (1 : ℕ) * Real.sqrt ((qVar (candNorms [true] [some (1 : ℚ)]) : ℚ) : ℝ) <
        (((candNorms [true] [some (1 : ℚ)]).getD i 0 : ℚ) : ℝ))) ∧
    (getGoodCells [true] [some (1 : ℚ)] 1).1.length =
      (getGoodCells [true] [some (1 : ℚ)] 1).2.2.length -
        (getGoodCells [true] [some (1 : ℚ)] 1).2.1.length ∧
    (∀ c ∈ (getGoodCells [true] [some (1 : ℚ)] 1).1,
      c ∉ (getGoodCells [true] [some (1 : ℚ)] 1).2.1.map
        (fun i => (getGoodCells [true] [some (1 : ℚ)] 1).2.2.getD i 0)) ∧
    (∀ c, c ∈ (getGoodCells [true] [some (1 : ℚ)] 1).1 ↔
      (c ∈ (getGoodCells [true] [some (1 : ℚ)] 1).2.2 ∧
        c ∉ (getGoodCells [true] [some (1 : ℚ)] 1).2.1.map
          (fun i => (getGoodCells [true] [some (1 : ℚ)] 1).2.2.getD i 0))) :=
  good_cells_spec [true] [some (1 : ℚ)] 1

end A1
